import Mathlib

/-!
Verification development for the TechCafeBooking portal: the slot
availability model, the booking synchronization service, display-name
sanitization, and the client-side utility functions
(`getOrCreateDeviceId`, `highlightText`, `checkNotificationLimit`).

Times of day are minutes after midnight (09:00 = 540, 18:00 = 1080);
dates are day indices (natural numbers); strings are lists of
characters.  The Flask backend (`app.py`) is not part of the source
tree, so its operations are modelled from the specification; the
client-side JavaScript utilities are translated directly from
`static/js/booking-utils.js` and the application-configuration script.
-/

namespace TechCafe

/-! ## Slot availability model -/

/-- Temporal status of a slot relative to the current instant. -/
inductive SlotStatus where
  | PAST
  | CURRENT
  | FUTURE
deriving DecidableEq, Repr

/-- Every slot lasts 15 minutes. -/
def slotDuration : Nat := 15

/-- Modelled from the spec: `app.py` is not in the source tree.  A slot's
status is PAST if `slot_start + duration <= now`, CURRENT if
`slot_start <= now < slot_start + duration`, else FUTURE. -/
def slotStatus (slotStart now : Nat) : SlotStatus :=
  if slotStart + slotDuration ≤ now then .PAST
  else if slotStart ≤ now then .CURRENT
  else .FUTURE

/-- Modelled from the spec: the morning section of `get_time_slots` in
`app.py`, 09:00–12:00 in 15-minute steps (12 slots). -/
def morningSlots : List Nat := (List.range 12).map (fun i => 540 + 15 * i)

/-- Modelled from the spec: the afternoon section of `get_time_slots` in
`app.py`, 14:00–18:00 in 15-minute steps (16 slots). -/
def afternoonSlots : List Nat := (List.range 16).map (fun i => 840 + 15 * i)

/-- Modelled from the spec: `get_time_slots` in `app.py`, the ordered
slot start times of a day, morning then afternoon, excluding the
12:00–14:00 lunch gap. -/
def get_time_slots : List Nat := morningSlots ++ afternoonSlots

/-- A slot as reported to the client: start time plus temporal status. -/
structure Slot where
  start : Nat
  status : SlotStatus
deriving DecidableEq, Repr

/-- Modelled from the spec: the slot availability model, a pure function
of (date, now) producing the day's slots tagged with temporal status.
The slot grid is the same for every date, so `date` does not influence
the start times. -/
def getSlots (date now : Nat) : List Slot :=
  get_time_slots.map (fun t => { start := t, status := slotStatus t now })

/-! ## Display-name sanitization -/

/-- ASCII control characters (codepoints below 32, and DEL = 127). -/
def isControlChar (c : Char) : Bool := c.toNat < 32 || c.toNat == 127

/-- Markup-significant characters: `<` `>` `&` and the two quote
characters (codepoints 60, 62, 38, 34, 39). -/
def isMarkupChar (c : Char) : Bool :=
  c.toNat == 60 || c.toNat == 62 || c.toNat == 38 || c.toNat == 34 ||
    c.toNat == 39

/-- A character survives stripping iff it is neither control nor markup. -/
def keepChar (c : Char) : Bool := !(isControlChar c) && !(isMarkupChar c)

/-- Collapse every run of consecutive spaces to a single space. -/
def squeezeSpaces : List Char → List Char
  | [] => []
  | [c] => [c]
  | c :: d :: cs =>
    if c = ' ' ∧ d = ' ' then squeezeSpaces (d :: cs)
    else c :: squeezeSpaces (d :: cs)

/-- Remove leading and trailing spaces. -/
def trimSpaces (cs : List Char) : List Char :=
  ((cs.dropWhile (fun c => c = ' ')).reverse.dropWhile
      (fun c => c = ' ')).reverse

/-- Normalization pipeline: strip control and markup characters, then
collapse whitespace runs and trim the ends. -/
def normalizeName (raw : List Char) : List Char :=
  trimSpaces (squeezeSpaces (raw.filter keepChar))

/-- Bound on the length of a persisted display name. -/
def maxNameLength : Nat := 50

/-- Boolean test: is `w` a prefix of the second list? -/
def listPrefixOf : List Char → List Char → Bool
  | [], _ => true
  | _ :: _, [] => false
  | a :: as, b :: bs => a == b && listPrefixOf as bs

/-- Boolean test: does `w` occur as a contiguous sublist? -/
def listInfixOf (w : List Char) : List Char → Bool
  | [] => listPrefixOf w []
  | c :: cs => listPrefixOf w (c :: cs) || listInfixOf w cs

/-- Case-insensitive blocklist test: some blocklisted word occurs as a
substring of the name, compared after lowercasing both. -/
def containsBlockedWord (blocklist : List (List Char)) (cs : List Char) :
    Bool :=
  blocklist.any (fun w => listInfixOf (w.map Char.toLower) (cs.map Char.toLower))

/-- Modelled from the spec: `sanitizeUsernameForDisplay` and the
server-side name gate; the implementation is not in the source tree.
Strips control and markup characters, collapses whitespace, rejects
(`none` = `InvalidName`) names that are empty after normalization or
that contain a blocklisted word case-insensitively, and truncates the
accepted name to `maxNameLength` (re-trimming so truncation cannot leave
a trailing space). -/
def sanitize (blocklist : List (List Char)) (raw : List Char) :
    Option (List Char) :=
  let normalized := normalizeName raw
  if normalized = [] then none
  else if containsBlockedWord blocklist normalized then none
  else some (trimSpaces (normalized.take maxNameLength))

/-! ## Date window -/

/-- Date-window validation failure. -/
inductive DateError where
  | InvalidDate
deriving DecidableEq, Repr

/-- Modelled from the spec: `get_available_dates` in `app.py` — exactly
three bookable dates: today, tomorrow, day-after-tomorrow, computed from
the server's current date. -/
def get_available_dates (today : Nat) : List Nat :=
  (List.range 3).map (fun i => today + i)

/-- Modelled from the spec: boundary-layer date validation — a requested
date outside the three-day window is rejected with `InvalidDate`. -/
def validate_date (today d : Nat) : Except DateError Unit :=
  if d ∈ get_available_dates today then .ok () else .error .InvalidDate

/-! ## Booking synchronization service -/

/-- A committed reservation. -/
structure Booking where
  date : Nat
  slotStart : Nat
  name : List Char
  deviceId : List Char
  createdAt : Nat
deriving DecidableEq, Repr

/-- The authoritative booking store: a list of committed bookings keyed
by (date, slot start time). -/
abbrev BookingMap := List Booking

/-- Does booking `b` occupy the key (date, slotStart)? -/
def isKey (date slotStart : Nat) (b : Booking) : Bool :=
  b.date == date && b.slotStart == slotStart

/-- Look up the active booking for a key, if any. -/
def findBooking (st : BookingMap) (date slotStart : Nat) : Option Booking :=
  st.find? (isKey date slotStart)

/-- Number of active bookings stored for a key. -/
def countKey (st : BookingMap) (date slotStart : Nat) : Nat :=
  (st.filter (isKey date slotStart)).length

/-- Typed failures of `book`. -/
inductive BookError where
  | SlotNotBookable
  | SlotAlreadyBooked
  | InvalidName
deriving DecidableEq, Repr

/-- Typed failures of `cancel`. -/
inductive CancelError where
  | NotFound
  | NotOwner
deriving DecidableEq, Repr

/-- Modelled from the spec: `book` in `app.py` is not in the source
tree.  Fails with `SlotNotBookable` if the slot is PAST and the caller
is not an admin; with `SlotAlreadyBooked` if an active booking already
exists for the key; with `InvalidName` if the name does not sanitize.
On success the new booking is prepended to the store (the atomic
check-then-write per key) and returned. -/
def book (blocklist : List (List Char)) (st : BookingMap)
    (now date slotStart : Nat) (rawName deviceId : List Char)
    (isAdmin : Bool) : Except BookError (Booking × BookingMap) :=
  if slotStatus slotStart now = .PAST ∧ isAdmin = false then
    .error .SlotNotBookable
  else if (findBooking st date slotStart).isSome then
    .error .SlotAlreadyBooked
  else
    match sanitize blocklist rawName with
    | none => .error .InvalidName
    | some safeName =>
      let b : Booking :=
        { date := date, slotStart := slotStart, name := safeName,
          deviceId := deviceId, createdAt := now }
      .ok (b, b :: st)

/-- Modelled from the spec: `cancel` in `app.py` is not in the source
tree.  Fails with `NotFound` if no active booking exists for the key;
with `NotOwner` if the caller is neither the owning device nor an
admin; on success the booking is removed from the store. -/
def cancel (st : BookingMap) (date slotStart : Nat) (deviceId : List Char)
    (isAdmin : Bool) : Except CancelError BookingMap :=
  match findBooking st date slotStart with
  | none => .error .NotFound
  | some b =>
      if b.deviceId = deviceId ∨ isAdmin = true then
        .ok (st.filter (fun x => !(isKey date slotStart x)))
      else .error .NotOwner

/-- Modelled from the spec: `listBookings(date)` returns the occupancy
for all slots of a date; it never fails. -/
def listBookings (st : BookingMap) (date : Nat) : List Booking :=
  st.filter (fun b => b.date == date)

/-- States reachable from the empty store by successful `book` and
`cancel` operations. -/
inductive Reachable (blocklist : List (List Char)) : BookingMap → Prop where
  | init : Reachable blocklist []
  | bookStep {st now date slotStart rawName deviceId isAdmin b st2} :
      Reachable blocklist st →
      book blocklist st now date slotStart rawName deviceId isAdmin =
        .ok (b, st2) →
      Reachable blocklist st2
  | cancelStep {st date slotStart deviceId isAdmin st2} :
      Reachable blocklist st →
      cancel st date slotStart deviceId isAdmin = .ok st2 →
      Reachable blocklist st2

/-- The store holds pairwise-distinct (date, slot start) keys. -/
abbrev distinctKeys (st : BookingMap) : Prop :=
  st.Pairwise (fun a b => ¬(a.date = b.date ∧ a.slotStart = b.slotStart))

/-- One caller in a booking race: the arguments it passes to `book`. -/
structure Attempt where
  rawName : List Char
  deviceId : List Char
  isAdmin : Bool
deriving DecidableEq, Repr

/-- N concurrent `book` calls on one key as serialized by the per-key
serialization point: the attempts run in some sequential order, each
seeing the store left by the previous one.  Returns every caller's
result and the final store. -/
def runRace (blocklist : List (List Char)) (now date slotStart : Nat) :
    BookingMap → List Attempt →
      List (Except BookError Booking) × BookingMap
  | st, [] => ([], st)
  | st, a :: rest =>
    match book blocklist st now date slotStart a.rawName a.deviceId
        a.isAdmin with
    | .ok (b, st2) =>
        let out := runRace blocklist now date slotStart st2 rest
        (.ok b :: out.1, out.2)
    | .error e =>
        let out := runRace blocklist now date slotStart st rest
        (.error e :: out.1, out.2)

/-- Did this caller's `book` succeed? -/
def isOkResult : Except BookError Booking → Bool
  | .ok _ => true
  | .error _ => false

/-! ## Device identity (`static/js/booking-utils.js`) -/

/-- The ambient values `getOrCreateDeviceId` reads when it has to mint a
fresh identifier: `Date.now()` rendered as a string, the
`Math.random().toString(36).substr(2, 9)` fragment, and
`btoa(navigator.userAgent.substr(0, 50))` (base64 output kept
abstract). -/
structure DeviceEnv where
  timestampStr : List Char
  randomStr : List Char
  uaB64 : List Char
deriving DecidableEq, Repr

/-- The identifier minted by `getOrCreateDeviceId`:
`'device_' + timestamp + '_' + random + '_' + btoa(userAgent).substr(0, 10)`. -/
def generatedDeviceId (env : DeviceEnv) : List Char :=
  ['d', 'e', 'v', 'i', 'c', 'e', '_'] ++ env.timestampStr ++ ['_'] ++
    env.randomStr ++ ['_'] ++ env.uaB64.take 10

/-- From `static/js/booking-utils.js`: `getOrCreateDeviceId`.  The
stored value is `localStorage.getItem('deviceId')` (`none` = null); the
JavaScript guard `if (!deviceId)` treats both null and the empty string
as absent, so an empty stored string is replaced.  Returns the
identifier handed to the caller and the storage contents after the
call. -/
def getOrCreateDeviceId (env : DeviceEnv) (stored : Option (List Char)) :
    List Char × Option (List Char) :=
  match stored with
  | none =>
      let nid := generatedDeviceId env
      (nid, some nid)
  | some id =>
      if id = [] then
        let nid := generatedDeviceId env
        (nid, some nid)
      else (id, some id)

/-! ## highlightText (application-configuration script) -/

/-- Case-insensitive character comparison, as the regex flag `i`
performs on ASCII. -/
def ciEq (a b : Char) : Bool := a.toLower == b.toLower

/-- A token of the regular expression `new RegExp('(' + query + ')',
'gi')` builds from one query character.  The modelled subset covers
queries made of ordinary characters and the metacharacter `.`; it is
faithful to JavaScript regex semantics on exactly those queries. -/
inductive RTok where
  | dot
  | lit (c : Char)
deriving DecidableEq, Repr

/-- Parse one query character as `new RegExp` does on the modelled
subset: `.` becomes the any-character matcher, everything else a
literal. -/
def parseRegexChar (c : Char) : RTok :=
  if c = '.' then .dot else .lit c

/-- Does a token match a character?  `.` matches everything except line
terminators; a literal matches case-insensitively (flag `i`). -/
def tokMatch : RTok → Char → Bool
  | .dot, c => !(c == Char.ofNat 10 || c == Char.ofNat 13)
  | .lit q, c => ciEq q c

/-- Length of the match of a token sequence against a prefix of the
text, if the whole sequence matches. -/
def matchLen : List RTok → List Char → Option Nat
  | [], _ => some 0
  | _ :: _, [] => none
  | t :: ts, c :: cs =>
    if tokMatch t c then (matchLen ts cs).map (· + 1) else none

/-- The opening tag the replacement `'<mark>$1</mark>'` inserts. -/
def markOpen : List Char := "<mark>".toList

/-- The closing tag the replacement `'<mark>$1</mark>'` inserts. -/
def markClose : List Char := "</mark>".toList

/-- `text.replace(regex, '<mark>$1</mark>')` with the global flag:
leftmost non-overlapping scan, wrapping each match and copying
non-matching characters unchanged.  The first token is kept separate so
every match consumes at least one character; the fuel argument (any
upper bound on the text length) makes the recursion structural. -/
def replaceScanF (t0 : RTok) (ts : List RTok) : Nat → List Char → List Char
  | _, [] => []
  | 0, _ :: _ => []
  | fuel + 1, c :: cs =>
    if tokMatch t0 c then
      match matchLen ts cs with
      | some n =>
          markOpen ++ (c :: cs.take n) ++ markClose ++
            replaceScanF t0 ts fuel (cs.drop n)
      | none => c :: replaceScanF t0 ts fuel cs
    else c :: replaceScanF t0 ts fuel cs

/-- The scan at its intended fuel: the length of the text. -/
def replaceScan (t0 : RTok) (ts : List RTok) (cs : List Char) : List Char :=
  replaceScanF t0 ts cs.length cs

/-- From the application-configuration script: `highlightText(text,
query)` — returns `text` unchanged when the query is empty (the falsy
guard), else wraps every regex match of the query in mark tags. -/
def highlightText (text query : List Char) : List Char :=
  match query with
  | [] => text
  | q :: qs => replaceScan (parseRegexChar q) (qs.map parseRegexChar) text

/-- Is `q` a case-insensitive prefix of `l`? -/
def ciPrefix : List Char → List Char → Bool
  | [], _ => true
  | _ :: _, [] => false
  | q :: qs, c :: cs => ciEq q c && ciPrefix qs cs

/-- Formalization of the claim's wording, for comparison with
`highlightText`: wrap every case-insensitive literal occurrence of the
query (leftmost, non-overlapping) in mark tags, leaving all other
characters unchanged.  Fuel as in `replaceScanF`. -/
def claimHighlightScanF (q0 : Char) (qs : List Char) :
    Nat → List Char → List Char
  | _, [] => []
  | 0, _ :: _ => []
  | fuel + 1, c :: cs =>
    if ciEq q0 c && ciPrefix qs cs then
      markOpen ++ (c :: cs.take qs.length) ++ markClose ++
        claimHighlightScanF q0 qs fuel (cs.drop qs.length)
    else c :: claimHighlightScanF q0 qs fuel cs

/-- The claim's scan at its intended fuel: the length of the text. -/
def claimHighlightScan (q0 : Char) (qs : List Char) (cs : List Char) :
    List Char :=
  claimHighlightScanF q0 qs cs.length cs

/-- Formalization of the claim's wording at the top level: empty query
is the identity, otherwise literal case-insensitive highlighting. -/
def claimHighlight (text query : List Char) : List Char :=
  match query with
  | [] => text
  | q :: qs => claimHighlightScan q qs text

/-- Characters with no special meaning in a JavaScript regular
expression (codepoints of `. \ ^ $ * + ? ( ) [ ] x7b x7d |`
excluded). -/
def isPlainChar (c : Char) : Bool :=
  !([46, 92, 94, 36, 42, 43, 63, 40, 41, 91, 93, 123, 125, 124].contains
      c.toNat)

/-! ## Notification limit (application-configuration script) -/

/-- `maxNotifications` in `checkNotificationLimit`. -/
def maxNotifications : Nat := 3

/-- From the application-configuration script: `checkNotificationLimit`
over the document-ordered list of `.toast-notification` elements — when
at least `maxNotifications` are present, the oldest (first) one is
removed; otherwise nothing changes. -/
def checkNotificationLimit {α : Type} (notifications : List α) : List α :=
  if maxNotifications ≤ notifications.length then
    match notifications with
    | [] => []
    | _ :: rest => rest
  else notifications

/-! ## Theorems -/

theorem slotStatus_past_iff (s now : Nat) :
    slotStatus s now = .PAST ↔ s + slotDuration ≤ now := by
  unfold slotStatus
  split
  · simp [*]
  · split <;> simp [*]

theorem slotStatus_current_iff (s now : Nat) :
    slotStatus s now = .CURRENT ↔ (s ≤ now ∧ now < s + slotDuration) := by
  unfold slotStatus
  split
  · constructor
    · intro h; cases h
    · intro h; omega
  · split
    · simp; omega
    · simp; omega

theorem slotStatus_future_iff (s now : Nat) :
    slotStatus s now = .FUTURE ↔ now < s := by
  unfold slotStatus
  split
  · constructor
    · intro h; cases h
    · intro h; omega
  · split
    · constructor
      · intro h; cases h
      · intro h; omega
    · simp; omega

theorem slotStatus_exactly_one (s now : Nat) :
    (slotStatus s now = .PAST ∨ slotStatus s now = .CURRENT ∨
      slotStatus s now = .FUTURE) ∧
    ¬(slotStatus s now = .PAST ∧ slotStatus s now = .CURRENT) ∧
    ¬(slotStatus s now = .PAST ∧ slotStatus s now = .FUTURE) ∧
    ¬(slotStatus s now = .CURRENT ∧ slotStatus s now = .FUTURE) := by
  refine ⟨?_, ?_, ?_, ?_⟩
  · cases h : slotStatus s now
    · exact Or.inl rfl
    · exact Or.inr (Or.inl rfl)
    · exact Or.inr (Or.inr rfl)
  · rintro ⟨h1, h2⟩; rw [h1] at h2; cases h2
  · rintro ⟨h1, h2⟩; rw [h1] at h2; cases h2
  · rintro ⟨h1, h2⟩; rw [h1] at h2; cases h2

/-- C2: for every slot start time and every instant, exactly one of
PAST, CURRENT, FUTURE holds, with the boundaries closed at slot start
and open at slot end: PAST iff `start + duration ≤ now`, CURRENT iff
`start ≤ now < start + duration`, FUTURE iff `now < start`. -/
theorem c2_slot_status_trichotomy (s now : Nat) :
    ((slotStatus s now = .PAST ∨ slotStatus s now = .CURRENT ∨
        slotStatus s now = .FUTURE) ∧
      ¬(slotStatus s now = .PAST ∧ slotStatus s now = .CURRENT) ∧
      ¬(slotStatus s now = .PAST ∧ slotStatus s now = .FUTURE) ∧
      ¬(slotStatus s now = .CURRENT ∧ slotStatus s now = .FUTURE)) ∧
    (slotStatus s now = .PAST ↔ s + slotDuration ≤ now) ∧
    (slotStatus s now = .CURRENT ↔ (s ≤ now ∧ now < s + slotDuration)) ∧
    (slotStatus s now = .FUTURE ↔ now < s) :=
  ⟨slotStatus_exactly_one s now, slotStatus_past_iff s now,
    slotStatus_current_iff s now, slotStatus_future_iff s now⟩

theorem mem_get_time_slots_iff (t : Nat) :
    t ∈ get_time_slots ↔
      (t % 15 = 0 ∧ 540 ≤ t ∧ t < 1080 ∧ ¬(720 ≤ t ∧ t < 840)) := by
  unfold get_time_slots morningSlots afternoonSlots
  simp only [List.mem_append, List.mem_map, List.mem_range]
  constructor
  · rintro (⟨i, hi, rfl⟩ | ⟨i, hi, rfl⟩) <;> omega
  · rintro ⟨hmod, hlo, hhi, hgap⟩
    by_cases hm : t < 720
    · exact Or.inl ⟨(t - 540) / 15, by omega⟩
    · exact Or.inr ⟨(t - 840) / 15, by omega⟩

theorem get_time_slots_eq :
    get_time_slots =
      [540, 555, 570, 585, 600, 615, 630, 645, 660, 675, 690, 705,
       840, 855, 870, 885, 900, 915, 930, 945, 960, 975, 990, 1005,
       1020, 1035, 1050, 1065] := by
  rfl

theorem get_time_slots_sorted : List.Chain' (· < ·) get_time_slots := by
  rw [get_time_slots_eq]
  norm_num [List.chain'_cons, List.chain'_singleton]

theorem get_time_slots_sections :
    morningSlots.length = 12 ∧ afternoonSlots.length = 16 ∧
    get_time_slots = morningSlots ++ afternoonSlots ∧
    (∀ t ∈ morningSlots, 540 ≤ t ∧ t + slotDuration ≤ 720) ∧
    (∀ t ∈ afternoonSlots, 840 ≤ t ∧ t + slotDuration ≤ 1080) :=
  ⟨by decide, by decide, rfl, by decide, by decide⟩

theorem getSlots_starts (date now : Nat) :
    (getSlots date now).map Slot.start = get_time_slots := by
  simp [getSlots, Function.comp_def]

theorem getSlots_status (date now : Nat) :
    ∀ sl ∈ getSlots date now, sl.status = slotStatus sl.start now := by
  intro sl hsl
  unfold getSlots at hsl
  simp only [List.mem_map] at hsl
  obtain ⟨t, _, rfl⟩ := hsl
  rfl

/-- C3: the slot availability model produces an ordered sequence of
15-minute slots covering 09:00–18:00 minus the 12:00–14:00 lunch gap —
12 morning slots followed by 16 afternoon slots — and `getSlots` is a
pure total function of (date, now): its start times are always exactly
`get_time_slots` and every slot's status is `slotStatus` of its start. -/
theorem c3_slot_sequence (date now : Nat) :
    ((getSlots date now).map Slot.start = get_time_slots) ∧
    (∀ t, t ∈ get_time_slots ↔
      (t % 15 = 0 ∧ 540 ≤ t ∧ t < 1080 ∧ ¬(720 ≤ t ∧ t < 840))) ∧
    List.Chain' (· < ·) get_time_slots ∧
    get_time_slots = morningSlots ++ afternoonSlots ∧
    morningSlots.length = 12 ∧ afternoonSlots.length = 16 ∧
    (∀ t ∈ morningSlots, 540 ≤ t ∧ t + slotDuration ≤ 720) ∧
    (∀ t ∈ afternoonSlots, 840 ≤ t ∧ t + slotDuration ≤ 1080) ∧
    (∀ sl ∈ getSlots date now, sl.status = slotStatus sl.start now) := by
  obtain ⟨h1, h2, h3, h4, h5⟩ := get_time_slots_sections
  exact ⟨getSlots_starts date now, mem_get_time_slots_iff,
    get_time_slots_sorted, h3, h1, h2, h4, h5, getSlots_status date now⟩

/-- C3 witness: the characterization evaluated at a concrete date and
instant (day 0, 10:00), with concrete membership facts discharged. -/
theorem c3_slot_sequence_witness :
    (600 ∈ TechCafe.get_time_slots ↔
      (600 % 15 = 0 ∧ 540 ≤ 600 ∧ 600 < 1080 ∧ ¬(720 ≤ 600 ∧ 600 < 840))) ∧
    (540 ∈ TechCafe.morningSlots ∧
      (540 ≤ 540 ∧ 540 + TechCafe.slotDuration ≤ 720)) ∧
    (840 ∈ TechCafe.afternoonSlots ∧
      (840 ≤ 840 ∧ 840 + TechCafe.slotDuration ≤ 1080)) := by
  have h := c3_slot_sequence 0 600
  refine ⟨h.2.1 600, ⟨by decide, (h.2.2.2.2.2.2.1 540 (by decide))⟩,
    ⟨by decide, (h.2.2.2.2.2.2.2.1 840 (by decide))⟩⟩

theorem mem_get_available_dates (today d : Nat) :
    d ∈ get_available_dates today ↔
      (d = today ∨ d = today + 1 ∨ d = today + 2) := by
  unfold get_available_dates
  simp only [List.mem_map, List.mem_range]
  constructor
  · rintro ⟨i, hi, rfl⟩
    omega
  · rintro (rfl | rfl | rfl)
    · exact ⟨0, by omega, by omega⟩
    · exact ⟨1, by omega, by omega⟩
    · exact ⟨2, by omega, by omega⟩

/-- C6: the bookable dates offered for server date `today` are exactly
today, tomorrow and the day after tomorrow; any requested date outside
this three-day window is rejected with `InvalidDate`, and any date
inside it is accepted. -/
theorem c6_date_window (today d : Nat) :
    get_available_dates today = [today, today + 1, today + 2] ∧
    (d ∈ get_available_dates today ↔
      (d = today ∨ d = today + 1 ∨ d = today + 2)) ∧
    (¬(d = today ∨ d = today + 1 ∨ d = today + 2) →
      validate_date today d = .error .InvalidDate) ∧
    ((d = today ∨ d = today + 1 ∨ d = today + 2) →
      validate_date today d = .ok ()) := by
  refine ⟨rfl, mem_get_available_dates today d, ?_, ?_⟩
  · intro h
    unfold validate_date
    rw [if_neg]
    intro hmem
    exact h ((mem_get_available_dates today d).1 hmem)
  · intro h
    unfold validate_date
    rw [if_pos ((mem_get_available_dates today d).2 h)]

/-- C6 witness: with a server date of day 0 the window is {0, 1, 2};
requesting day 3 yields `InvalidDate`, requesting day 0 succeeds. -/
theorem c6_date_window_witness :
    ¬((3 : Nat) = 0 ∨ (3 : Nat) = 0 + 1 ∨ (3 : Nat) = 0 + 2) ∧
    TechCafe.validate_date 0 3 = .error .InvalidDate ∧
    ((0 : Nat) = 0 ∨ (0 : Nat) = 0 + 1 ∨ (0 : Nat) = 0 + 2) ∧
    TechCafe.validate_date 0 0 = .ok () :=
  ⟨by decide, (c6_date_window 0 3).2.2.1 (by decide), by decide,
    (c6_date_window 0 0).2.2.2 (by decide)⟩

/-- C10: `checkNotificationLimit` changes nothing when fewer than 3
notifications are present; with 3 or more it removes exactly the first
(oldest) one, leaving the rest untouched; it never removes more than
one notification per call. -/
theorem c10_notification_limit {α : Type} (l : List α) :
    (l.length < maxNotifications → checkNotificationLimit l = l) ∧
    (maxNotifications ≤ l.length → checkNotificationLimit l = l.tail) ∧
    l.length ≤ (checkNotificationLimit l).length + 1 := by
  unfold checkNotificationLimit
  refine ⟨?_, ?_, ?_⟩
  · intro h
    rw [if_neg (by omega)]
  · intro h
    rw [if_pos h]
    cases l with
    | nil => rfl
    | cons a t => rfl
  · split
    · cases l with
      | nil => simp
      | cons a t => simp
    · omega

/-- C10 witness: with the three notifications [1, 2, 3] present, the
call removes exactly the oldest, leaving [2, 3]; with only [1, 2] it
changes nothing. -/
theorem c10_notification_limit_witness :
    TechCafe.checkNotificationLimit [1, 2, 3] = [2, 3] ∧
    TechCafe.checkNotificationLimit [1, 2] = [1, 2] := by
  have h3 := c10_notification_limit [1, 2, 3]
  have h2 := c10_notification_limit [1, 2]
  exact ⟨h3.2.1 (by decide), h2.1 (by decide)⟩

theorem generatedDeviceId_ne_nil (env : DeviceEnv) :
    generatedDeviceId env ≠ [] := by
  simp [generatedDeviceId]

/-- C8 counterexample: when storage holds the empty string — an existing
stored `deviceId`, since `getItem` returns it — the claim says the call
returns it and leaves the storage unchanged, but the falsy guard
`if (!deviceId)` regenerates: the returned token is not the stored empty
string and the storage is overwritten. -/
theorem c8_counterexample :
    ¬((getOrCreateDeviceId ⟨['1'], ['r'], ['u']⟩ (some [])).1 = [] ∧
      (getOrCreateDeviceId ⟨['1'], ['r'], ['u']⟩ (some [])).2 = some []) := by
  decide

/-- C8 amended: if `getOrCreateDeviceId` finds an existing non-empty
deviceId it returns it and leaves the storage unchanged; after any call
the storage holds exactly the returned token (so a missing or empty
stored value is replaced by the minted token); consequently a second
call against the resulting storage returns the same token and changes
nothing (idempotence). -/
theorem c8_device_id (env env2 : DeviceEnv) (stored : Option (List Char)) :
    (∀ id, id ≠ [] → getOrCreateDeviceId env (some id) = (id, some id)) ∧
    (getOrCreateDeviceId env stored).2 =
      some (getOrCreateDeviceId env stored).1 ∧
    getOrCreateDeviceId env2 (getOrCreateDeviceId env stored).2 =
      ((getOrCreateDeviceId env stored).1,
        (getOrCreateDeviceId env stored).2) := by
  have hret : ∀ id, id ≠ [] → getOrCreateDeviceId env2 (some id) = (id, some id) := by
    intro id hid
    simp [getOrCreateDeviceId, hid]
  have h1 : (getOrCreateDeviceId env stored).1 ≠ [] := by
    cases stored with
    | none => simp [getOrCreateDeviceId, generatedDeviceId]
    | some id =>
      by_cases h : id = []
      · simp [getOrCreateDeviceId, h, generatedDeviceId]
      · simp [getOrCreateDeviceId, h]
  have h2 : (getOrCreateDeviceId env stored).2 =
      some (getOrCreateDeviceId env stored).1 := by
    cases stored with
    | none => rfl
    | some id =>
      by_cases h : id = []
      · simp [getOrCreateDeviceId, h]
      · simp [getOrCreateDeviceId, h]
  refine ⟨?_, h2, ?_⟩
  · intro id hid
    simp [getOrCreateDeviceId, hid]
  · rw [h2, hret _ h1]

/-- C8 witness: a non-empty stored token is returned unchanged, and a
call from empty storage followed by a second call returns the same
token with the storage stable. -/
theorem c8_device_id_witness :
    getOrCreateDeviceId ⟨['1'], ['r'], ['u']⟩ (some ['x']) =
      (['x'], some ['x']) ∧
    getOrCreateDeviceId ⟨['2'], ['s'], ['v']⟩
        (getOrCreateDeviceId ⟨['1'], ['r'], ['u']⟩ none).2 =
      ((getOrCreateDeviceId ⟨['1'], ['r'], ['u']⟩ none).1,
        (getOrCreateDeviceId ⟨['1'], ['r'], ['u']⟩ none).2) :=
  ⟨(c8_device_id ⟨['1'], ['r'], ['u']⟩ ⟨['1'], ['r'], ['u']⟩ none).1
      ['x'] (by decide),
    (c8_device_id ⟨['1'], ['r'], ['u']⟩ ⟨['2'], ['s'], ['v']⟩ none).2.2⟩

theorem book_eq_slotNotBookable_iff (bl : List (List Char))
    (st : BookingMap) (now date slotStart : Nat)
    (rawName deviceId : List Char) (isAdmin : Bool) :
    book bl st now date slotStart rawName deviceId isAdmin =
        .error .SlotNotBookable ↔
      (slotStatus slotStart now = .PAST ∧ isAdmin = false) := by
  constructor
  · intro heq
    by_contra hP
    unfold book at heq
    rw [if_neg hP] at heq
    split at heq
    · simp at heq
    · split at heq
      · simp at heq
      · simp at heq
  · intro hP
    unfold book
    rw [if_pos hP]

theorem book_ok_of_valid (bl : List (List Char)) (st : BookingMap)
    (now date slotStart : Nat) (rawName deviceId : List Char)
    (isAdmin : Bool) (safeName : List Char)
    (hP : ¬(slotStatus slotStart now = .PAST ∧ isAdmin = false))
    (hfind : findBooking st date slotStart = none)
    (hsan : sanitize bl rawName = some safeName) :
    book bl st now date slotStart rawName deviceId isAdmin =
      .ok ({ date := date, slotStart := slotStart, name := safeName,
             deviceId := deviceId, createdAt := now },
           { date := date, slotStart := slotStart, name := safeName,
             deviceId := deviceId, createdAt := now } :: st) := by
  unfold book
  rw [if_neg hP, if_neg (by rw [hfind]; simp), hsan]

/-- C4: `book` fails with `SlotNotBookable` exactly when the slot is
PAST and the caller is not an admin; a PAST slot's booking by a
non-admin always yields `SlotNotBookable`, while the identical call
with admin rights succeeds whenever the slot is free and the name
sanitizes; non-PAST slots never yield `SlotNotBookable` for any
caller. -/
theorem c4_past_booking_policy (bl : List (List Char)) (st : BookingMap)
    (now date slotStart : Nat) (rawName deviceId : List Char) :
    (∀ isAdmin,
      book bl st now date slotStart rawName deviceId isAdmin =
          .error .SlotNotBookable ↔
        (slotStatus slotStart now = .PAST ∧ isAdmin = false)) ∧
    (slotStatus slotStart now = .PAST →
      book bl st now date slotStart rawName deviceId false =
        .error .SlotNotBookable) ∧
    (∀ isAdmin, (slotStatus slotStart now ≠ .PAST ∨ isAdmin = true) →
      findBooking st date slotStart = none →
      ∀ safeName, sanitize bl rawName = some safeName →
        book bl st now date slotStart rawName deviceId isAdmin =
          .ok ({ date := date, slotStart := slotStart, name := safeName,
                 deviceId := deviceId, createdAt := now },
               { date := date, slotStart := slotStart, name := safeName,
                 deviceId := deviceId, createdAt := now } :: st)) ∧
    (slotStatus slotStart now ≠ .PAST →
      ∀ isAdmin, book bl st now date slotStart rawName deviceId isAdmin ≠
        .error .SlotNotBookable) := by
  refine ⟨fun isAdmin =>
      book_eq_slotNotBookable_iff bl st now date slotStart rawName deviceId
        isAdmin, ?_, ?_, ?_⟩
  · intro h
    exact (book_eq_slotNotBookable_iff bl st now date slotStart rawName
      deviceId false).2 ⟨h, rfl⟩
  · intro isAdmin hcase hfind safeName hsan
    refine book_ok_of_valid bl st now date slotStart rawName deviceId
      isAdmin safeName ?_ hfind hsan
    rintro ⟨hpast, hadm⟩
    rcases hcase with h | h
    · exact h hpast
    · rw [h] at hadm
      cases hadm
  · intro h isAdmin heq
    exact h ((book_eq_slotNotBookable_iff bl st now date slotStart rawName
      deviceId isAdmin).1 heq).1

/-- C4 witness: at 10:05 (now = 605) the 09:45 slot (start = 585) is
PAST; a non-admin booking attempt on the empty store yields
`SlotNotBookable`, and the identical call with admin rights succeeds. -/
theorem c4_past_booking_policy_witness :
    TechCafe.book [] [] 605 0 585 ['B', 'o', 'b'] ['d'] false =
      .error .SlotNotBookable ∧
    TechCafe.book [] [] 605 0 585 ['B', 'o', 'b'] ['d'] true =
      .ok ({ date := 0, slotStart := 585, name := ['B', 'o', 'b'],
             deviceId := ['d'], createdAt := 605 },
           [{ date := 0, slotStart := 585, name := ['B', 'o', 'b'],
              deviceId := ['d'], createdAt := 605 }]) := by
  have h := c4_past_booking_policy [] [] 605 0 585 ['B', 'o', 'b'] ['d']
  exact ⟨h.2.1 (by decide),
    h.2.2.1 true (Or.inr rfl) (by decide) ['B', 'o', 'b'] (by decide)⟩

theorem cancel_ok_cases {st : BookingMap} {date slotStart : Nat}
    {deviceId : List Char} {isAdmin : Bool} {st2 : BookingMap}
    (h : cancel st date slotStart deviceId isAdmin = .ok st2) :
    st2 = st.filter (fun x => !(isKey date slotStart x)) := by
  unfold cancel at h
  split at h
  · cases h
  · split at h
    · cases h
      rfl
    · cases h

theorem findBooking_filter_out (st : BookingMap) (date slotStart : Nat) :
    findBooking (st.filter (fun x => !(isKey date slotStart x)))
      date slotStart = none := by
  unfold findBooking
  rw [List.find?_eq_none]
  intro x hx
  have := List.of_mem_filter hx
  simp only [Bool.not_eq_true'] at this
  simp [this]

/-- C7: `cancel` fails with `NotFound` when no active booking exists
for the key (in particular a second cancel after a successful one
returns `NotFound`), fails with `NotOwner` when a booking exists but
the caller is neither the owning device nor an admin, and on success
returns the store with the key's booking removed and every other
booking kept. -/
theorem c7_cancel_semantics (st : BookingMap) (date slotStart : Nat)
    (deviceId : List Char) (isAdmin : Bool) :
    (findBooking st date slotStart = none →
      cancel st date slotStart deviceId isAdmin = .error .NotFound) ∧
    (∀ st2, cancel st date slotStart deviceId isAdmin = .ok st2 →
      ∀ dev2 adm2, cancel st2 date slotStart dev2 adm2 =
        .error .NotFound) ∧
    (∀ b, findBooking st date slotStart = some b →
      b.deviceId ≠ deviceId → isAdmin = false →
      cancel st date slotStart deviceId isAdmin = .error .NotOwner) ∧
    (∀ b, findBooking st date slotStart = some b →
      (b.deviceId = deviceId ∨ isAdmin = true) →
      ∃ st2, cancel st date slotStart deviceId isAdmin = .ok st2 ∧
        findBooking st2 date slotStart = none ∧
        ∀ x ∈ st, isKey date slotStart x = false → x ∈ st2) := by
  refine ⟨?_, ?_, ?_, ?_⟩
  · intro h
    unfold cancel
    rw [h]
  · intro st2 h dev2 adm2
    have hst2 := cancel_ok_cases h
    unfold cancel
    rw [hst2, findBooking_filter_out]
  · intro b hb hdev hadm
    simp only [cancel, hb]
    rw [if_neg]
    rintro (h | h)
    · exact hdev h
    · rw [hadm] at h
      cases h
  · intro b hb hown
    refine ⟨st.filter (fun x => !(isKey date slotStart x)), ?_,
      findBooking_filter_out st date slotStart, ?_⟩
    · simp only [cancel, hb]
      rw [if_pos hown]
    · intro x hx hkey
      exact List.mem_filter.2 ⟨hx, by simp [hkey]⟩

/-- C7 witness: on a store holding one booking for (date 0, 09:00), a
cancel by a foreign device fails with `NotOwner`, a cancel by the
owner succeeds and removes it, and cancelling again yields `NotFound`;
cancelling a key with no booking yields `NotFound`. -/
theorem c7_cancel_semantics_witness :
    TechCafe.cancel
        [{ date := 0, slotStart := 540, name := ['B'], deviceId := ['d'],
           createdAt := 540 }] 0 540 ['e'] false = .error .NotOwner ∧
    TechCafe.cancel
        [{ date := 0, slotStart := 540, name := ['B'], deviceId := ['d'],
           createdAt := 540 }] 0 540 ['d'] false = .ok [] ∧
    TechCafe.cancel [] 0 540 ['d'] false = .error .NotFound := by
  have h := c7_cancel_semantics
    [{ date := 0, slotStart := 540, name := ['B'], deviceId := ['d'],
       createdAt := 540 }] 0 540 ['e'] false
  have h2 := c7_cancel_semantics
    [{ date := 0, slotStart := 540, name := ['B'], deviceId := ['d'],
       createdAt := 540 }] 0 540 ['d'] false
  have h3 := c7_cancel_semantics [] 0 540 ['d'] false
  refine ⟨?_, ?_, h3.1 (by decide)⟩
  · exact h.2.2.1
      { date := 0, slotStart := 540, name := ['B'], deviceId := ['d'],
        createdAt := 540 } (by decide) (by decide) rfl
  · obtain ⟨st2, hok, hnone, hkeep⟩ := h2.2.2.2
      { date := 0, slotStart := 540, name := ['B'], deviceId := ['d'],
        createdAt := 540 } (by decide) (Or.inl rfl)
    have hst2 := cancel_ok_cases hok
    rw [hok, hst2]
    rfl

theorem findBooking_none_iff (st : BookingMap) (date slotStart : Nat) :
    findBooking st date slotStart = none ↔
      ∀ b ∈ st, isKey date slotStart b = false := by
  unfold findBooking
  rw [List.find?_eq_none]
  simp [Bool.not_eq_true]

theorem isKey_false_elim {date slotStart : Nat} {b : Booking}
    (h : isKey date slotStart b = false) :
    ¬(b.date = date ∧ b.slotStart = slotStart) := by
  simp only [isKey, Bool.and_eq_false_iff, beq_eq_false_iff_ne, ne_eq] at h
  tauto

theorem book_ok_cases {bl : List (List Char)} {st : BookingMap}
    {now date slotStart : Nat} {rawName deviceId : List Char}
    {isAdmin : Bool} {b : Booking} {st2 : BookingMap}
    (h : book bl st now date slotStart rawName deviceId isAdmin =
      .ok (b, st2)) :
    b.date = date ∧ b.slotStart = slotStart ∧ st2 = b :: st ∧
      findBooking st date slotStart = none ∧
      sanitize bl rawName = some b.name := by
  unfold book at h
  split at h
  · cases h
  · split at h
    · cases h
    · rename_i hfind
      split at h
      · cases h
      · rename_i safeName hsan
        cases h
        refine ⟨rfl, rfl, rfl, ?_, hsan⟩
        cases hf : findBooking st date slotStart with
        | none => rfl
        | some x =>
          rw [hf] at hfind
          simp at hfind

theorem reachable_distinctKeys {bl : List (List Char)} {st : BookingMap}
    (h : Reachable bl st) : distinctKeys st := by
  induction h with
  | init => exact List.Pairwise.nil
  | bookStep hr hb ih =>
    obtain ⟨hd, hs, hst2, hfind, _⟩ := book_ok_cases hb
    subst hst2
    refine List.Pairwise.cons ?_ ih
    intro x hx
    have hkey := (findBooking_none_iff _ _ _).1 hfind x hx
    have hne := isKey_false_elim hkey
    rintro ⟨h1, h2⟩
    exact hne ⟨by omega, by omega⟩
  | cancelStep hr hc ih =>
    rw [cancel_ok_cases hc]
    exact List.Pairwise.sublist (List.filter_sublist _) ih

theorem distinct_countKey_le_one {st : BookingMap} (h : distinctKeys st)
    (date slotStart : Nat) : countKey st date slotStart ≤ 1 := by
  unfold countKey
  induction st with
  | nil => simp
  | cons b t ih =>
    have hb : ∀ x ∈ t, ¬(b.date = x.date ∧ b.slotStart = x.slotStart) :=
      fun x hx => List.rel_of_pairwise_cons h hx
    have ht : distinctKeys t := List.Pairwise.of_cons h
    rw [List.filter_cons]
    split
    · rename_i hkb
      have hfil : t.filter (isKey date slotStart) = [] := by
        rw [List.filter_eq_nil_iff]
        intro x hx hkx
        simp only [isKey, Bool.and_eq_true, beq_iff_eq] at hkb hkx
        exact hb x hx ⟨by omega, by omega⟩
      simp [hfil]
    · exact ih ht

theorem findBooking_none_countKey {st : BookingMap} {date slotStart : Nat}
    (h : findBooking st date slotStart = none) :
    countKey st date slotStart = 0 := by
  unfold countKey
  rw [List.length_eq_zero, List.filter_eq_nil_iff]
  intro x hx hk
  rw [(findBooking_none_iff st date slotStart).1 h x hx] at hk
  cases hk

theorem book_already_booked (bl : List (List Char)) (st : BookingMap)
    (now date slotStart : Nat) (rawName deviceId : List Char)
    (isAdmin : Bool) (b0 : Booking)
    (hP : ¬(slotStatus slotStart now = .PAST ∧ isAdmin = false))
    (hfind : findBooking st date slotStart = some b0) :
    book bl st now date slotStart rawName deviceId isAdmin =
      .error .SlotAlreadyBooked := by
  unfold book
  rw [if_neg hP, if_pos (by rw [hfind]; rfl)]

theorem runRace_booked {bl : List (List Char)} {now date slotStart : Nat}
    (hstat : slotStatus slotStart now ≠ .PAST) :
    ∀ (attempts : List Attempt) (st : BookingMap) (b0 : Booking),
      findBooking st date slotStart = some b0 →
      runRace bl now date slotStart st attempts =
        (attempts.map (fun _ => .error .SlotAlreadyBooked), st) := by
  intro attempts
  induction attempts with
  | nil =>
    intro st b0 h
    rfl
  | cons a rest ih =>
    intro st b0 h
    have hbook := book_already_booked bl st now date slotStart a.rawName
      a.deviceId a.isAdmin b0 (fun hc => hstat hc.1) h
    unfold runRace
    rw [hbook]
    simp [ih st b0 h]

theorem runRace_spec {bl : List (List Char)} {now date slotStart : Nat}
    (hstat : slotStatus slotStart now ≠ .PAST) :
    ∀ (st : BookingMap) (attempts : List Attempt),
      findBooking st date slotStart = none →
      (∀ a ∈ attempts, (sanitize bl a.rawName).isSome = true) →
      attempts ≠ [] →
      ∃ b, (runRace bl now date slotStart st attempts).1 =
          .ok b :: attempts.tail.map (fun _ => .error .SlotAlreadyBooked) ∧
        (runRace bl now date slotStart st attempts).2 = b :: st ∧
        isKey date slotStart b = true := by
  intro st attempts hfind hval hne
  cases attempts with
  | nil => exact absurd rfl hne
  | cons a rest =>
    obtain ⟨sn, hsn⟩ := Option.isSome_iff_exists.1
      (hval a (List.mem_cons_self a rest))
    have hbook := book_ok_of_valid bl st now date slotStart a.rawName
      a.deviceId a.isAdmin sn (fun hc => hstat hc.1) hfind hsn
    refine ⟨{ date := date, slotStart := slotStart, name := sn,
              deviceId := a.deviceId, createdAt := now }, ?_, ?_, ?_⟩
    · unfold runRace
      rw [hbook]
      have hfind2 : findBooking
          ({ date := date, slotStart := slotStart, name := sn,
             deviceId := a.deviceId, createdAt := now } :: st)
          date slotStart =
          some { date := date, slotStart := slotStart, name := sn,
                 deviceId := a.deviceId, createdAt := now } := by
        unfold findBooking
        rw [List.find?_cons_of_pos]
        simp [isKey]
      simp [runRace_booked hstat rest _ _ hfind2]
    · unfold runRace
      rw [hbook]
      have hfind2 : findBooking
          ({ date := date, slotStart := slotStart, name := sn,
             deviceId := a.deviceId, createdAt := now } :: st)
          date slotStart =
          some { date := date, slotStart := slotStart, name := sn,
                 deviceId := a.deviceId, createdAt := now } := by
        unfold findBooking
        rw [List.find?_cons_of_pos]
        simp [isKey]
      simp [runRace_booked hstat rest _ _ hfind2]
    · simp [isKey]

/-- C1: in every reachable state of the booking service each
(date, slot start) key holds at most one active booking; and when N
`book` calls race on one free, non-past key with sanitizable names, the
serialization gives exactly one caller success, every other caller
`SlotAlreadyBooked` (N − 1 of them), and the final store holds exactly
one booking for the key. -/
theorem c1_at_most_one_winner (bl : List (List Char)) :
    (∀ st, Reachable bl st → ∀ date slotStart,
      countKey st date slotStart ≤ 1) ∧
    (∀ now date slotStart st (attempts : List Attempt),
      slotStatus slotStart now ≠ .PAST →
      findBooking st date slotStart = none →
      (∀ a ∈ attempts, (sanitize bl a.rawName).isSome = true) →
      attempts ≠ [] →
      ((runRace bl now date slotStart st attempts).1.countP isOkResult =
          1 ∧
        ((runRace bl now date slotStart st attempts).1.countP
            (fun r => !(isOkResult r))) = attempts.length - 1 ∧
        (∀ r ∈ (runRace bl now date slotStart st attempts).1,
          isOkResult r = true ∨ r = .error .SlotAlreadyBooked) ∧
        countKey (runRace bl now date slotStart st attempts).2
            date slotStart = 1)) := by
  constructor
  · intro st hr date slotStart
    exact distinct_countKey_le_one (reachable_distinctKeys hr) date slotStart
  · intro now date slotStart st attempts hstat hfind hval hne
    obtain ⟨b, hres, hfin, hkey⟩ :=
      runRace_spec hstat st attempts hfind hval hne
    have hmapcount : ∀ (p : Except BookError Booking → Bool)
        (l : List Attempt), (∀ x : Attempt,
          p ((fun _ => (.error .SlotAlreadyBooked :
              Except BookError Booking)) x) = false) →
        (l.map (fun _ => (.error .SlotAlreadyBooked :
            Except BookError Booking))).countP p = 0 := by
      intro p l hp
      rw [List.countP_eq_zero]
      intro r hr
      obtain ⟨x, _, rfl⟩ := List.mem_map.1 hr
      simp [hp x]
    refine ⟨?_, ?_, ?_, ?_⟩
    · rw [hres, List.countP_cons]
      rw [hmapcount isOkResult attempts.tail (fun x => rfl)]
      simp [isOkResult]
    · rw [hres, List.countP_cons]
      have hall : (attempts.tail.map (fun _ => (.error .SlotAlreadyBooked :
          Except BookError Booking))).countP (fun r => !(isOkResult r)) =
          (attempts.tail.map (fun _ => (.error .SlotAlreadyBooked :
            Except BookError Booking))).length :=
        List.countP_eq_length.2 (by
          intro r hr
          obtain ⟨x, _, rfl⟩ := List.mem_map.1 hr
          rfl)
      rw [hall]
      cases attempts with
      | nil => exact absurd rfl hne
      | cons a rest => simp [isOkResult]
    · intro r hr
      rw [hres] at hr
      cases hr with
      | head => exact Or.inl rfl
      | tail _ h =>
        obtain ⟨x, _, rfl⟩ := List.mem_map.1 h
        exact Or.inr rfl
    · rw [hfin]
      unfold countKey
      rw [List.filter_cons, if_pos hkey]
      have h0 : countKey st date slotStart = 0 :=
        findBooking_none_countKey hfind
      unfold countKey at h0
      simp [h0]

/-- C1 witness: two callers race on the free 10:00 slot of day 0 at
10:00 (a CURRENT slot): exactly one result is a success, the other is
`SlotAlreadyBooked`, and the final store holds exactly one booking for
the key. -/
theorem c1_at_most_one_winner_witness :
    (TechCafe.runRace [] 600 0 600 []
        [⟨['A'], ['d', 'a'], false⟩, ⟨['B'], ['d', 'b'], false⟩]).1.countP
      TechCafe.isOkResult = 1 ∧
    (TechCafe.runRace [] 600 0 600 []
        [⟨['A'], ['d', 'a'], false⟩, ⟨['B'], ['d', 'b'], false⟩]).1.countP
      (fun r => !(TechCafe.isOkResult r)) = 2 - 1 ∧
    TechCafe.countKey
      (TechCafe.runRace [] 600 0 600 []
        [⟨['A'], ['d', 'a'], false⟩, ⟨['B'], ['d', 'b'], false⟩]).2
      0 600 = 1 := by
  have h := (c1_at_most_one_winner []).2 600 0 600 []
    [⟨['A'], ['d', 'a'], false⟩, ⟨['B'], ['d', 'b'], false⟩]
    (by decide) rfl (by decide) (by decide)
  exact ⟨h.1, h.2.1, h.2.2.2⟩

theorem squeezeSpaces_sublist (l : List Char) :
    List.Sublist (squeezeSpaces l) l := by
  induction l with
  | nil => exact List.Sublist.refl []
  | cons c t ih =>
    cases t with
    | nil => exact List.Sublist.refl [c]
    | cons d cs =>
      simp only [squeezeSpaces]
      split
      · exact List.Sublist.cons c ih
      · exact List.Sublist.cons₂ c ih

theorem trimSpaces_sublist (l : List Char) :
    List.Sublist (trimSpaces l) l := by
  unfold trimSpaces
  have h1 : List.Sublist (l.dropWhile (fun c => c = ' ')) l :=
    List.dropWhile_sublist _
  have h2 : List.Sublist
      ((l.dropWhile (fun c => c = ' ')).reverse.dropWhile
        (fun c => c = ' '))
      (l.dropWhile (fun c => c = ' ')).reverse :=
    List.dropWhile_sublist _
  have h3 := h2.reverse
  rw [List.reverse_reverse] at h3
  exact h3.trans h1

theorem normalizeName_sublist (raw : List Char) :
    List.Sublist (normalizeName raw) (raw.filter keepChar) :=
  (trimSpaces_sublist _).trans (squeezeSpaces_sublist _)

theorem sanitize_some_eq {bl : List (List Char)} {raw r : List Char}
    (h : sanitize bl raw = some r) :
    r = trimSpaces ((normalizeName raw).take maxNameLength) := by
  simp only [sanitize] at h
  split at h
  · cases h
  · split at h
    · cases h
    · injection h with h2
      exact h2.symm

theorem sanitize_some_sublist {bl : List (List Char)} {raw r : List Char}
    (h : sanitize bl raw = some r) :
    List.Sublist r (raw.filter keepChar) := by
  rw [sanitize_some_eq h]
  exact ((trimSpaces_sublist _).trans (List.take_sublist _ _)).trans
    (normalizeName_sublist raw)

theorem sanitize_some_keep {bl : List (List Char)} {raw r : List Char}
    (h : sanitize bl raw = some r) : ∀ c ∈ r, keepChar c = true :=
  fun c hc => List.of_mem_filter ((sanitize_some_sublist h).subset hc)

theorem keepChar_elim {c : Char} (h : keepChar c = true) :
    isMarkupChar c = false ∧ isControlChar c = false := by
  simp only [keepChar, Bool.and_eq_true, Bool.not_eq_true'] at h
  exact ⟨h.2, h.1⟩

theorem dropWhile_head?_false {p : Char → Bool} {l : List Char} {c : Char}
    (h : (l.dropWhile p).head? = some c) : p c = false := by
  have hd := List.head?_dropWhile_not p l
  rw [h] at hd
  exact hd

theorem trimSpaces_getLast? {l : List Char} {c : Char}
    (h : (trimSpaces l).getLast? = some c) : ¬(c = ' ') := by
  unfold trimSpaces at h
  rw [List.getLast?_reverse] at h
  have hp := dropWhile_head?_false h
  simp only [decide_eq_false_iff_not] at hp
  exact hp

theorem trimSpaces_head? {l : List Char} {c : Char}
    (h : (trimSpaces l).head? = some c) : ¬(c = ' ') := by
  unfold trimSpaces at h
  rw [List.head?_reverse] at h
  obtain ⟨u, hu⟩ := List.dropWhile_suffix
    (l := (l.dropWhile (fun c => c = ' ')).reverse) (fun c => decide (c = ' '))
  have h2 : ((l.dropWhile (fun c => c = ' ')).reverse).getLast? = some c := by
    rw [← hu, List.getLast?_append, h]
    rfl
  rw [List.getLast?_reverse] at h2
  have hp := dropWhile_head?_false h2
  simp only [decide_eq_false_iff_not] at hp
  exact hp

theorem sanitize_some_length {bl : List (List Char)} {raw r : List Char}
    (h : sanitize bl raw = some r) : r.length ≤ maxNameLength := by
  rw [sanitize_some_eq h]
  have h1 := (trimSpaces_sublist
    ((normalizeName raw).take maxNameLength)).length_le
  rw [List.length_take] at h1
  omega

theorem sanitize_empty_norm {bl : List (List Char)} {raw : List Char}
    (h : normalizeName raw = []) : sanitize bl raw = none := by
  simp only [sanitize]
  rw [if_pos h]

theorem infix_filter_of_all {w l : List Char} {p : Char → Bool}
    (hw : ∀ c ∈ w, p c = true) (h : w <:+: l) : w <:+: l.filter p := by
  obtain ⟨s, t, rfl⟩ := h
  exact ⟨s.filter p, t.filter p, by
    simp [List.filter_append, List.filter_eq_self.2 hw]⟩

theorem infix_dropWhile_of_no_space {w : List Char}
    (hw : ∀ c ∈ w, ¬(c = ' ')) :
    ∀ l : List Char, w <:+: l →
      w <:+: l.dropWhile (fun c => c = ' ') := by
  intro l
  induction l with
  | nil =>
    intro h
    simpa using h
  | cons c cs ih =>
    intro h
    rw [List.dropWhile_cons]
    split
    · rename_i hc
      rcases List.infix_cons_iff.1 h with hpre | hinf
      · cases w with
        | nil => exact List.nil_infix
        | cons a as =>
          rcases List.cons_prefix_cons.1 hpre with ⟨rfl, _⟩
          exact absurd (of_decide_eq_true hc)
            (hw a (List.mem_cons_self a as))
      · exact ih hinf
    · exact h

theorem prefix_squeezeSpaces :
    ∀ (l w : List Char), (∀ c ∈ w, ¬(c = ' ')) → w <+: l →
      w <+: squeezeSpaces l := by
  intro l
  induction l with
  | nil =>
    intro w hw h
    have hw0 : w = [] := by simpa using h
    subst hw0
    exact List.nil_prefix
  | cons c cs ih =>
    intro w hw h
    cases w with
    | nil => exact List.nil_prefix
    | cons a as =>
      rcases List.cons_prefix_cons.1 h with ⟨rfl, has⟩
      cases cs with
      | nil =>
        have hnil : as = [] := List.prefix_nil.1 has
        subst hnil
        simp [squeezeSpaces]
      | cons d ds =>
        simp only [squeezeSpaces]
        split
        · rename_i hcd
          exact absurd hcd.1 (hw a (List.mem_cons_self _ _))
        · exact List.cons_prefix_cons.2
            ⟨rfl, ih as (fun x hx => hw x (List.mem_cons_of_mem _ hx)) has⟩

theorem infix_squeezeSpaces :
    ∀ (l w : List Char), (∀ c ∈ w, ¬(c = ' ')) → w <:+: l →
      w <:+: squeezeSpaces l := by
  intro l
  induction l with
  | nil =>
    intro w hw h
    have hw0 : w = [] := by simpa using h
    subst hw0
    exact List.nil_infix
  | cons c cs ih =>
    intro w hw h
    rcases List.infix_cons_iff.1 h with hpre | hinf
    · exact (prefix_squeezeSpaces (c :: cs) w hw hpre).isInfix
    · cases cs with
      | nil =>
        have hnil : w = [] := by simpa using hinf
        subst hnil
        exact List.nil_infix
      | cons d ds =>
        have h2 := ih w hw hinf
        simp only [squeezeSpaces]
        split
        · exact h2
        · exact List.infix_cons h2

theorem infix_trimSpaces {w : List Char} (hw : ∀ c ∈ w, ¬(c = ' '))
    {l : List Char} (h : w <:+: l) : w <:+: trimSpaces l := by
  unfold trimSpaces
  have h1 := infix_dropWhile_of_no_space hw l h
  have h2 : w.reverse <:+: (l.dropWhile (fun c => c = ' ')).reverse :=
    List.reverse_infix.2 h1
  have h3 := infix_dropWhile_of_no_space
    (w := w.reverse) (fun c hc => hw c (List.mem_reverse.1 hc)) _ h2
  have h4 := List.reverse_infix.2 h3
  simpa using h4

theorem listPrefixOf_iff (w l : List Char) :
    listPrefixOf w l = true ↔ w <+: l := by
  induction w generalizing l with
  | nil => simp [listPrefixOf, List.nil_prefix]
  | cons a as ih =>
    cases l with
    | nil => simp [listPrefixOf]
    | cons b bs =>
      simp [listPrefixOf, List.cons_prefix_cons, ih, Bool.and_eq_true,
        beq_iff_eq]

theorem listInfixOf_iff (w l : List Char) :
    listInfixOf w l = true ↔ w <:+: l := by
  induction l with
  | nil => simp [listInfixOf, listPrefixOf_iff]
  | cons c cs ih =>
    simp [listInfixOf, listPrefixOf_iff, ih, List.infix_cons_iff,
      Bool.or_eq_true]

theorem toLower_fix_lower {d : Char} (h1 : 97 ≤ d.toNat) :
    d.toLower = d := by
  simp only [Char.toLower]
  rw [if_neg (by omega)]

theorem alpha_of_toLower_eq {c d : Char} (h1 : 97 ≤ d.toNat)
    (h2 : d.toNat ≤ 122) (h : c.toLower = d.toLower) :
    (65 ≤ c.toNat ∧ c.toNat ≤ 90) ∨ (97 ≤ c.toNat ∧ c.toNat ≤ 122) := by
  rw [toLower_fix_lower h1] at h
  simp only [Char.toLower] at h
  split at h
  · rename_i hcond
    exact Or.inl (by omega)
  · right
    rw [h]
    exact ⟨h1, h2⟩

theorem keep_of_alpha {c : Char}
    (h : (65 ≤ c.toNat ∧ c.toNat ≤ 90) ∨ (97 ≤ c.toNat ∧ c.toNat ≤ 122)) :
    keepChar c = true ∧ ¬(c = ' ') := by
  constructor
  · simp only [keepChar, isControlChar, isMarkupChar, Bool.and_eq_true,
      Bool.not_eq_true', Bool.or_eq_false_iff, decide_eq_false_iff_not,
      Nat.not_lt, beq_eq_false_iff_ne, ne_eq]
    omega
  · intro he
    subst he
    have h32 : (' ' : Char).toNat = 32 := rfl
    omega

theorem sanitize_blocked {bl : List (List Char)} {w raw w2 : List Char}
    (hwbl : w ∈ bl) (hw : ∀ c ∈ w, 97 ≤ c.toNat ∧ c.toNat ≤ 122)
    (hocc : w2 <:+: raw)
    (hlow : w2.map Char.toLower = w.map Char.toLower) :
    sanitize bl raw = none := by
  have hchars : ∀ c ∈ w2, keepChar c = true ∧ ¬(c = ' ') := by
    intro c hc
    have hmem : c.toLower ∈ w.map Char.toLower := by
      rw [← hlow]
      exact List.mem_map_of_mem _ hc
    obtain ⟨d, hd, hde⟩ := List.mem_map.1 hmem
    exact keep_of_alpha (alpha_of_toLower_eq (hw d hd).1 (hw d hd).2 hde.symm)
  have h1 : w2 <:+: raw.filter keepChar :=
    infix_filter_of_all (fun c hc => (hchars c hc).1) hocc
  have h2 : w2 <:+: squeezeSpaces (raw.filter keepChar) :=
    infix_squeezeSpaces _ w2 (fun c hc => (hchars c hc).2) h1
  have h3 : w2 <:+: normalizeName raw :=
    infix_trimSpaces (fun c hc => (hchars c hc).2) h2
  have h4 : w.map Char.toLower <:+: (normalizeName raw).map Char.toLower := by
    rw [← hlow]
    exact List.IsInfix.map Char.toLower h3
  have h5 : containsBlockedWord bl (normalizeName raw) = true := by
    unfold containsBlockedWord
    rw [List.any_eq_true]
    exact ⟨w, hwbl, (listInfixOf_iff _ _).2 h4⟩
  simp only [sanitize]
  by_cases he : normalizeName raw = []
  · rw [if_pos he]
  · rw [if_neg he, if_pos h5]

/-- C5: `sanitize` rejects every name that is empty after normalization
(in particular the empty and the all-space string) and every name
containing a blocklisted word as a case-insensitive substring; every
accepted name contains no markup and no control characters, has no
leading or trailing whitespace (so `"  <b>Bob</b>  "` sanitizes to a
markup-free trimmed name), and is bounded in length; and every name
stored in a reachable state of the service is the output of
`sanitize` — no unsanitized name is ever persisted. -/
theorem c5_sanitize_contract (bl : List (List Char)) :
    (∀ raw, normalizeName raw = [] → sanitize bl raw = none) ∧
    sanitize bl [] = none ∧
    sanitize bl [' ', ' ', ' '] = none ∧
    sanitize [] ("  <b>Bob</b>  ".toList) =
      some ['b', 'B', 'o', 'b', '/', 'b'] ∧
    (∀ raw r, sanitize bl raw = some r →
      ((∀ c ∈ r, isMarkupChar c = false ∧ isControlChar c = false) ∧
        (∀ c, r.head? = some c → ¬(c = ' ')) ∧
        (∀ c, r.getLast? = some c → ¬(c = ' ')) ∧
        r.length ≤ maxNameLength)) ∧
    (∀ w ∈ bl, (∀ c ∈ w, 97 ≤ c.toNat ∧ c.toNat ≤ 122) →
      ∀ raw w2, w2 <:+: raw → w2.map Char.toLower = w.map Char.toLower →
        sanitize bl raw = none) ∧
    (∀ st, Reachable bl st → ∀ b ∈ st,
      ∃ raw, sanitize bl raw = some b.name) := by
  refine ⟨fun raw h => sanitize_empty_norm h, by rfl, by rfl, by decide,
    ?_, ?_, ?_⟩
  · intro raw r h
    refine ⟨?_, ?_, ?_, sanitize_some_length h⟩
    · intro c hc
      exact keepChar_elim (sanitize_some_keep h c hc)
    · intro c hc
      rw [sanitize_some_eq h] at hc
      exact trimSpaces_head? hc
    · intro c hc
      rw [sanitize_some_eq h] at hc
      exact trimSpaces_getLast? hc
  · intro w hwbl hw raw w2 hocc hlow
    exact sanitize_blocked hwbl hw hocc hlow
  · intro st hr
    induction hr with
    | init =>
      intro b hb
      cases hb
    | bookStep hr2 hb ih =>
      obtain ⟨_, _, hst2, _, hsan⟩ := book_ok_cases hb
      subst hst2
      intro x hx
      rcases List.mem_cons.1 hx with rfl | hx2
      · exact ⟨_, hsan⟩
      · exact ih x hx2
    | cancelStep hr2 hc ih =>
      intro x hx
      rw [cancel_ok_cases hc] at hx
      exact ih x (List.mem_filter.1 hx).1

/-- C5 witness: with blocklist {"spam"}, the all-space name is rejected,
"xSPAMy" is rejected for its case-insensitive blocklisted substring,
and the accepted name "Bob" is markup- and control-free. -/
theorem c5_sanitize_contract_witness :
    TechCafe.sanitize [['s', 'p', 'a', 'm']] [' ', ' '] = none ∧
    TechCafe.sanitize [['s', 'p', 'a', 'm']]
      ['x', 'S', 'P', 'A', 'M', 'y'] = none ∧
    (∀ c ∈ (['B', 'o', 'b'] : List Char),
      TechCafe.isMarkupChar c = false ∧
        TechCafe.isControlChar c = false) := by
  have h := c5_sanitize_contract [['s', 'p', 'a', 'm']]
  refine ⟨h.1 [' ', ' '] (by decide), ?_, ?_⟩
  · exact h.2.2.2.2.2.1 ['s', 'p', 'a', 'm'] (by decide) (by decide)
      ['x', 'S', 'P', 'A', 'M', 'y'] ['S', 'P', 'A', 'M']
      ⟨['x'], ['y'], by decide⟩ (by decide)
  · have hs : TechCafe.sanitize [['s', 'p', 'a', 'm']] ['B', 'o', 'b'] =
        some ['B', 'o', 'b'] := by decide
    exact (h.2.2.2.2.1 ['B', 'o', 'b'] ['B', 'o', 'b'] hs).1

theorem parseRegexChar_plain {c : Char} (h : isPlainChar c = true) :
    parseRegexChar c = .lit c := by
  unfold parseRegexChar
  rw [if_neg]
  intro hc
  rw [hc] at h
  exact absurd h (by decide)

theorem matchLen_plain :
    ∀ (qs cs : List Char), (∀ c ∈ qs, isPlainChar c = true) →
      matchLen (qs.map parseRegexChar) cs =
        if ciPrefix qs cs = true then some qs.length else none := by
  intro qs
  induction qs with
  | nil =>
    intro cs h
    simp [matchLen, ciPrefix]
  | cons q qt ih =>
    intro cs h
    have hq := parseRegexChar_plain (h q (List.mem_cons_self q qt))
    cases cs with
    | nil =>
      rw [List.map_cons, hq]
      simp [matchLen, ciPrefix]
    | cons c ct =>
      rw [List.map_cons, hq]
      simp only [matchLen, tokMatch]
      rw [ih ct (fun x hx => h x (List.mem_cons_of_mem q hx))]
      by_cases hc : ciEq q c = true
      · by_cases hp : ciPrefix qt ct = true
        · simp [ciPrefix, hc, hp]
        · simp [ciPrefix, hc, hp]
      · simp [ciPrefix, hc]

theorem scanF_plain {q0 : Char} {qs : List Char}
    (hq0 : isPlainChar q0 = true) (hqs : ∀ c ∈ qs, isPlainChar c = true) :
    ∀ (fuel : Nat) (cs : List Char),
      replaceScanF (parseRegexChar q0) (qs.map parseRegexChar) fuel cs =
        claimHighlightScanF q0 qs fuel cs := by
  intro fuel
  induction fuel with
  | zero =>
    intro cs
    cases cs with
    | nil => rfl
    | cons c ct => rfl
  | succ f ih =>
    intro cs
    cases cs with
    | nil => rfl
    | cons c ct =>
      have ih2 : ∀ cs2 : List Char,
          replaceScanF (RTok.lit q0) (qs.map parseRegexChar) f cs2 =
            claimHighlightScanF q0 qs f cs2 := fun cs2 => by
        rw [← parseRegexChar_plain hq0]
        exact ih cs2
      rw [parseRegexChar_plain hq0]
      simp only [replaceScanF, claimHighlightScanF, tokMatch]
      rw [matchLen_plain qs ct hqs]
      by_cases hc : ciEq q0 c = true
      · by_cases hp : ciPrefix qs ct = true
        · simp [hc, hp, ih2]
        · simp [hc, hp, ih2]
      · simp [hc, ih2]

/-- C9 amended: with an empty (or absent) query `highlightText` is the
identity; and for a non-empty query consisting only of characters with
no special regex meaning, it returns the text with every
case-insensitive occurrence of the query (leftmost, non-overlapping)
wrapped in mark tags and all non-matching characters unchanged.  (For
queries containing regex metacharacters the unescaped interpolation
into `new RegExp` makes the code deviate from literal matching.) -/
theorem c9_highlight_text (text query : List Char) :
    (highlightText text [] = text) ∧
    (query ≠ [] → (∀ c ∈ query, isPlainChar c = true) →
      highlightText text query = claimHighlight text query) := by
  refine ⟨rfl, ?_⟩
  intro hne hplain
  cases query with
  | nil => exact absurd rfl hne
  | cons q qt =>
    unfold highlightText claimHighlight replaceScan claimHighlightScan
    exact scanF_plain (hplain q (List.mem_cons_self q qt))
      (fun c hc => hplain c (List.mem_cons_of_mem q hc)) text.length text

/-- C9 counterexample: on text "ab" with query ".", the query does not
occur in the text, so the claim demands the text back unchanged; the
code interpolates the unescaped query into `new RegExp`, where `.`
matches every character, and marks both characters. -/
theorem c9_counterexample :
    highlightText ['a', 'b'] ['.'] ≠ claimHighlight ['a', 'b'] ['.'] ∧
    highlightText ['a', 'b'] ['.'] =
      "<mark>a</mark><mark>b</mark>".toList ∧
    claimHighlight ['a', 'b'] ['.'] = ['a', 'b'] :=
  ⟨by decide, by decide, by decide⟩

/-- C9 witness: on text "xAby" and the metacharacter-free query "ab",
the code wraps exactly the case-insensitive occurrence "Ab" in mark
tags. -/
theorem c9_highlight_text_witness :
    (['a', 'b'] : List Char) ≠ [] ∧
    highlightText ['x', 'A', 'b', 'y'] ['a', 'b'] =
      claimHighlight ['x', 'A', 'b', 'y'] ['a', 'b'] ∧
    highlightText ['x', 'A', 'b', 'y'] ['a', 'b'] =
      "x<mark>Ab</mark>y".toList :=
  ⟨by decide, (c9_highlight_text ['x', 'A', 'b', 'y'] ['a', 'b']).2
    (by decide) (by decide), by decide⟩

end TechCafe
